import Mathlib

/-!
Verification development for the tv-event-streaming repository.

We give a shallow embedding of the core data-model and algorithm layer:
the preference delta-reconciler (`src/user_preferences/preferences.py`
`set_user_preferences` and `src/web_api/web_api.py`
`update_user_preferences`), the Kinesis ingestion deduplicator
(`src/title_recommendations_consumer/consumer.py` `lambda_handler`),
the recommendation resolver (`src/web_api/web_api.py`
`_get_titles_from_dynamo_optimized`) and the rating encoding of the
enrichment step (`src/title_enrichment/enrichment.py`).

The single DynamoDB table is modelled per component in the shape the
component actually touches: the reconciler sees the set of sort keys in
one user's `userpref:<userId>` partition (a `Finset String`); the
ingestion consumer sees the table as a list of keyed rows so that
duplicate keys are expressible; the resolver sees the table through the
two read operations it performs (query-by-partition and batch-get).
-/

namespace TvES

/-- Python's `s.split(':', 1)[1]` on the character-list level: everything
after the first colon (empty when no colon occurs, a case the repository's
key formats never produce). -/
def afterColonList : List Char → List Char
  | [] => []
  | c :: cs => if c = ':' then cs else afterColonList cs

/-- `s.split(':', 1)[1]` for the repository's `prefix:rest` keys. -/
def afterFirstColon (s : String) : String := ⟨afterColonList s.data⟩

/-- Python's `s.startswith(p)`. -/
def hasPrefix (p s : String) : Bool := p.data.isPrefixOf s.data

theorem afterColonList_append (p : List Char) (hp : ':' ∉ p) (r : List Char) :
    afterColonList (p ++ ':' :: r) = r := by
  induction p with
  | nil => simp [afterColonList]
  | cons c cs ih =>
    simp only [List.mem_cons, not_or] at hp
    have hc : ¬ c = ':' := fun h => hp.1 h.symm
    simp [afterColonList, hc, ih hp.2]

theorem data_append (a b : String) : (a ++ b).data = a.data ++ b.data := rfl

theorem append_right_injective (p : String) :
    Function.Injective (fun s : String => p ++ s) := by
  intro a b h
  have hd : p.data ++ a.data = p.data ++ b.data := by
    have := congrArg String.data h
    simpa [data_append] using this
  have h2 : a.data = b.data := List.append_cancel_left hd
  cases a
  cases b
  exact congrArg String.mk h2

theorem hasPrefix_append (p s : String) : hasPrefix p (p ++ s) = true := by
  simp [hasPrefix, data_append, List.isPrefixOf_iff_prefix]

/-! ### Preference reconciler (`preferences.py` `set_user_preferences`)

`set_user_preferences(user_id, body)` reads the existing sort keys of the
partition `userpref:<user_id>`, builds the desired sort-key set from the
request body (`body.get('sources', [])`, `body.get('genres', [])`),
computes the two difference sets, exits with a 204 response when both are
empty, and otherwise issues one batch write with the deletes and the puts.
-/

/-- A PUT `/preferences` request body; `none` models an absent JSON key
(Python's `body.get(key, [])` supplies `[]` then). -/
structure PrefBody where
  sources : Option (List String)
  genres : Option (List String)

/-- `new_prefs_sk_set = {f"source:{s}" ...} | {f"genre:{g}" ...}` from
`preferences.py` line 138, with the `.get(_, [])` defaults of lines
136-137. -/
def newPrefsSkSet (body : PrefBody) : Finset String :=
  ((body.sources.getD []).map (fun s => "source:" ++ s)).toFinset ∪
    ((body.genres.getD []).map (fun g => "genre:" ++ g)).toFinset

/-- Outcome of one `set_user_preferences` call: the partition's sort-key
set afterwards, the sort keys queued as deletes and as puts in the single
batch write (empty on the early no-op exit), and the HTTP status code of
the response. -/
structure ReconcileResult where
  state : Finset String
  dels : Finset String
  puts : Finset String
  statusCode : Nat
  deriving DecidableEq

/-- `set_user_preferences` of `preferences.py` (lines 128-175), acting on
the existing sort-key set of the user's `userpref:` partition.  The store
itself applies deletes and puts of a DynamoDB batch write key-wise, so the
resulting partition state is `(existing \ dels) ∪ puts`. -/
def set_user_preferences (existing : Finset String) (body : PrefBody) :
    ReconcileResult :=
  if newPrefsSkSet body \ existing = ∅ ∧ existing \ newPrefsSkSet body = ∅ then
    { state := existing, dels := ∅, puts := ∅, statusCode := 204 }
  else
    { state := (existing \ (existing \ newPrefsSkSet body)) ∪
        (newPrefsSkSet body \ existing)
      dels := existing \ newPrefsSkSet body
      puts := newPrefsSkSet body \ existing
      statusCode := 204 }

theorem set_user_preferences_state (existing : Finset String)
    (body : PrefBody) :
    (set_user_preferences existing body).state = newPrefsSkSet body := by
  rw [set_user_preferences]
  by_cases h : newPrefsSkSet body \ existing = ∅ ∧
      existing \ newPrefsSkSet body = ∅
  · rw [if_pos h]
    have h1 := Finset.sdiff_eq_empty_iff_subset.mp h.1
    have h2 := Finset.sdiff_eq_empty_iff_subset.mp h.2
    exact Finset.Subset.antisymm h2 h1
  · rw [if_neg h]
    ext x
    simp only [Finset.mem_union, Finset.mem_sdiff, not_and, not_not]
    constructor
    · rintro (⟨hx, hn⟩ | ⟨hn, _⟩)
      · by_cases hm : x ∈ newPrefsSkSet body
        · exact hm
        · exact absurd (hn hx) hm
      · exact hn
    · intro hn
      by_cases hx : x ∈ existing
      · exact Or.inl ⟨hx, fun _ => hn⟩
      · exact Or.inr ⟨hn, hx⟩

theorem set_user_preferences_dels (existing : Finset String)
    (body : PrefBody) :
    (set_user_preferences existing body).dels =
      existing \ newPrefsSkSet body := by
  rw [set_user_preferences]
  by_cases h : newPrefsSkSet body \ existing = ∅ ∧
      existing \ newPrefsSkSet body = ∅
  · rw [if_pos h]; exact h.2.symm
  · rw [if_neg h]

theorem set_user_preferences_puts (existing : Finset String)
    (body : PrefBody) :
    (set_user_preferences existing body).puts =
      newPrefsSkSet body \ existing := by
  rw [set_user_preferences]
  by_cases h : newPrefsSkSet body \ existing = ∅ ∧
      existing \ newPrefsSkSet body = ∅
  · rw [if_pos h]; exact h.1.symm
  · rw [if_neg h]

theorem set_user_preferences_statusCode (existing : Finset String)
    (body : PrefBody) :
    (set_user_preferences existing body).statusCode = 204 := by
  rw [set_user_preferences]
  split <;> rfl

/-! ### Preference reconciler (`web_api.py` `update_user_preferences`)

The web handler's variant first parses the stored sort keys into source
ids and genre ids (`get_user_preferences`, lines 86-94), computes the four
id-level delta sets (lines 113-121), returns `True` without writing when
all four are empty (lines 124-126), and otherwise re-encodes the deltas as
sort keys in one batch write (lines 128-139) and returns `True`. -/

theorem string_mk_eq {a b : String} (h : a.data = b.data) : a = b := by
  cases a
  cases b
  exact congrArg String.mk h

/-- Source-id set parsed from a partition's sort keys by
`get_user_preferences` (keys starting `source:`, id after the colon). -/
def parsedSources (s : Finset String) : Finset String :=
  (s.filter (fun sk => hasPrefix "source:" sk = true)).image afterFirstColon

/-- Genre-id set parsed from a partition's sort keys by
`get_user_preferences` (keys starting `genre:`, id after the colon). -/
def parsedGenres (s : Finset String) : Finset String :=
  (s.filter (fun sk => hasPrefix "genre:" sk = true)).image afterFirstColon

/-- Sort-key encoding `f'{SOURCE_PREFIX}{source_id}'` of a set of source
ids. -/
def encSrc (ids : Finset String) : Finset String :=
  ids.image (fun s => "source:" ++ s)

/-- Sort-key encoding `f'{GENRE_PREFIX}{genre_id}'` of a set of genre
ids. -/
def encGen (ids : Finset String) : Finset String :=
  ids.image (fun g => "genre:" ++ g)

/-- Sort keys deleted by `update_user_preferences` (lines 136-139). -/
def webDels (existing : Finset String) (body : PrefBody) : Finset String :=
  encSrc (parsedSources existing \ (body.sources.getD []).toFinset) ∪
    encGen (parsedGenres existing \ (body.genres.getD []).toFinset)

/-- Sort keys put by `update_user_preferences` (lines 130-133). -/
def webPuts (existing : Finset String) (body : PrefBody) : Finset String :=
  encSrc ((body.sources.getD []).toFinset \ parsedSources existing) ∪
    encGen ((body.genres.getD []).toFinset \ parsedGenres existing)

/-- Outcome of one web-API `update_user_preferences` call. -/
structure WebUpdateResult where
  state : Finset String
  dels : Finset String
  puts : Finset String
  ok : Bool
  deriving DecidableEq

/-- `update_user_preferences` of `web_api.py` (lines 101-145) acting on
the existing sort-key set of the user's partition. -/
def update_user_preferences (existing : Finset String) (body : PrefBody) :
    WebUpdateResult :=
  if (body.sources.getD []).toFinset \ parsedSources existing = ∅ ∧
      parsedSources existing \ (body.sources.getD []).toFinset = ∅ ∧
      (body.genres.getD []).toFinset \ parsedGenres existing = ∅ ∧
      parsedGenres existing \ (body.genres.getD []).toFinset = ∅ then
    { state := existing, dels := ∅, puts := ∅, ok := true }
  else
    { state := (existing \ webDels existing body) ∪ webPuts existing body
      dels := webDels existing body
      puts := webPuts existing body
      ok := true }

/-- Every sort key in the partition carries one of the two preference
prefixes; true of any state the reconcilers themselves produced. -/
def WellFormedPrefs (s : Finset String) : Prop :=
  ∀ sk ∈ s, hasPrefix "source:" sk = true ∨ hasPrefix "genre:" sk = true

theorem afterFirstColon_append (q : String) (hq : ':' ∉ q.data) (x : String) :
    afterFirstColon ((q ++ ":") ++ x) = x := by
  apply string_mk_eq
  show afterColonList ((q ++ ":") ++ x).data = x.data
  have hd : ((q ++ ":") ++ x).data = q.data ++ ':' :: x.data := by
    simp [data_append]
  rw [hd, afterColonList_append q.data hq]

theorem roundtrip_src (sk : String) (h : hasPrefix "source:" sk = true) :
    "source:" ++ afterFirstColon sk = sk := by
  obtain ⟨t, ht⟩ := List.isPrefixOf_iff_prefix.mp h
  have hdata : sk.data = "source".data ++ ':' :: t := by
    rw [← ht]; rfl
  have h1 : afterFirstColon sk = ⟨t⟩ := by
    apply string_mk_eq
    show afterColonList sk.data = t
    rw [hdata]
    exact afterColonList_append _ (by decide) t
  rw [h1]
  apply string_mk_eq
  rw [hdata]
  rfl

theorem roundtrip_gen (sk : String) (h : hasPrefix "genre:" sk = true) :
    "genre:" ++ afterFirstColon sk = sk := by
  obtain ⟨t, ht⟩ := List.isPrefixOf_iff_prefix.mp h
  have hdata : sk.data = "genre".data ++ ':' :: t := by
    rw [← ht]; rfl
  have h1 : afterFirstColon sk = ⟨t⟩ := by
    apply string_mk_eq
    show afterColonList sk.data = t
    rw [hdata]
    exact afterColonList_append _ (by decide) t
  rw [h1]
  apply string_mk_eq
  rw [hdata]
  rfl

theorem src_ne_gen (a b : String) : "source:" ++ a ≠ "genre:" ++ b := by
  intro h
  have := congrArg String.data h
  simp [data_append] at this

theorem hasPrefix_src_append (x : String) :
    hasPrefix "source:" ("source:" ++ x) = true := hasPrefix_append _ x

theorem hasPrefix_gen_append (x : String) :
    hasPrefix "genre:" ("genre:" ++ x) = true := hasPrefix_append _ x

theorem not_hasPrefix_src_gen (x : String) :
    hasPrefix "source:" ("genre:" ++ x) = false := by
  have hd : ("genre:" ++ x).data = 'g' :: ("enre:" ++ x).data := rfl
  simp only [hasPrefix, hd]
  rfl

theorem not_hasPrefix_gen_src (x : String) :
    hasPrefix "genre:" ("source:" ++ x) = false := by
  have hd : ("source:" ++ x).data = 's' :: ("ource:" ++ x).data := rfl
  simp only [hasPrefix, hd]
  rfl

theorem mem_encSrc {ids : Finset String} {i : String} :
    "source:" ++ i ∈ encSrc ids ↔ i ∈ ids :=
  Function.Injective.mem_finset_image (append_right_injective "source:")

theorem mem_encGen {ids : Finset String} {i : String} :
    "genre:" ++ i ∈ encGen ids ↔ i ∈ ids :=
  Function.Injective.mem_finset_image (append_right_injective "genre:")

/-- A well-formed partition state is exactly the encoding of the id sets
`get_user_preferences` parses from it. -/
theorem wellFormed_decomp {s : Finset String} (hs : WellFormedPrefs s) :
    s = encSrc (parsedSources s) ∪ encGen (parsedGenres s) := by
  ext sk
  constructor
  · intro hsk
    rcases hs sk hsk with h | h
    · apply Finset.mem_union_left
      rw [← roundtrip_src sk h]
      rw [mem_encSrc]
      exact Finset.mem_image_of_mem _ (Finset.mem_filter.mpr ⟨hsk, h⟩)
    · apply Finset.mem_union_right
      rw [← roundtrip_gen sk h]
      rw [mem_encGen]
      exact Finset.mem_image_of_mem _ (Finset.mem_filter.mpr ⟨hsk, h⟩)
  · intro hsk
    rcases Finset.mem_union.mp hsk with h | h
    · obtain ⟨i, hi, rfl⟩ := Finset.mem_image.mp h
      obtain ⟨sk', hsk', rfl⟩ := Finset.mem_image.mp hi
      rw [roundtrip_src sk' (Finset.mem_filter.mp hsk').2]
      exact (Finset.mem_filter.mp hsk').1
    · obtain ⟨i, hi, rfl⟩ := Finset.mem_image.mp h
      obtain ⟨sk', hsk', rfl⟩ := Finset.mem_image.mp hi
      rw [roundtrip_gen sk' (Finset.mem_filter.mp hsk').2]
      exact (Finset.mem_filter.mp hsk').1

theorem newPrefsSkSet_decomp (body : PrefBody) :
    newPrefsSkSet body = encSrc (body.sources.getD []).toFinset ∪
      encGen (body.genres.getD []).toFinset := by
  ext x
  simp [newPrefsSkSet, encSrc, encGen]

/-- Membership shape of the source-encoded half. -/
theorem mem_encSrc_elim {ids : Finset String} {x : String}
    (h : x ∈ encSrc ids) : ∃ i ∈ ids, x = "source:" ++ i := by
  obtain ⟨i, hi, rfl⟩ := Finset.mem_image.mp h
  exact ⟨i, hi, rfl⟩

theorem mem_encGen_elim {ids : Finset String} {x : String}
    (h : x ∈ encGen ids) : ∃ i ∈ ids, x = "genre:" ++ i := by
  obtain ⟨i, hi, rfl⟩ := Finset.mem_image.mp h
  exact ⟨i, hi, rfl⟩

/-- On a well-formed state, the id-level deletes of the web reconciler
re-encode to exactly the sort-key-level deletes of `preferences.py`. -/
theorem webDels_eq {s : Finset String} (hs : WellFormedPrefs s)
    (body : PrefBody) : webDels s body = s \ newPrefsSkSet body := by
  ext x
  rw [newPrefsSkSet_decomp]
  constructor
  · intro hx
    rcases Finset.mem_union.mp hx with h | h
    · obtain ⟨i, hi, rfl⟩ := mem_encSrc_elim h
      obtain ⟨hiE, hiN⟩ := Finset.mem_sdiff.mp hi
      refine Finset.mem_sdiff.mpr ⟨?_, ?_⟩
      · rw [wellFormed_decomp hs]
        exact Finset.mem_union_left _ (mem_encSrc.mpr hiE)
      · intro hmem
        rcases Finset.mem_union.mp hmem with hm | hm
        · exact hiN (mem_encSrc.mp hm)
        · obtain ⟨j, _, hj⟩ := mem_encGen_elim hm
          exact src_ne_gen i j hj
    · obtain ⟨i, hi, rfl⟩ := mem_encGen_elim h
      obtain ⟨hiE, hiN⟩ := Finset.mem_sdiff.mp hi
      refine Finset.mem_sdiff.mpr ⟨?_, ?_⟩
      · rw [wellFormed_decomp hs]
        exact Finset.mem_union_right _ (mem_encGen.mpr hiE)
      · intro hmem
        rcases Finset.mem_union.mp hmem with hm | hm
        · obtain ⟨j, _, hj⟩ := mem_encSrc_elim hm
          exact src_ne_gen j i hj.symm
        · exact hiN (mem_encGen.mp hm)
  · intro hx
    obtain ⟨hxs, hxn⟩ := Finset.mem_sdiff.mp hx
    rw [wellFormed_decomp hs] at hxs
    rcases Finset.mem_union.mp hxs with h | h
    · obtain ⟨i, hi, rfl⟩ := mem_encSrc_elim h
      apply Finset.mem_union_left
      rw [mem_encSrc]
      refine Finset.mem_sdiff.mpr ⟨mem_encSrc.mp h, fun hiN => ?_⟩
      exact hxn (Finset.mem_union_left _ (mem_encSrc.mpr hiN))
    · obtain ⟨i, hi, rfl⟩ := mem_encGen_elim h
      apply Finset.mem_union_right
      rw [mem_encGen]
      refine Finset.mem_sdiff.mpr ⟨mem_encGen.mp h, fun hiN => ?_⟩
      exact hxn (Finset.mem_union_right _ (mem_encGen.mpr hiN))

/-- On a well-formed state, the id-level puts of the web reconciler
re-encode to exactly the sort-key-level puts of `preferences.py`. -/
theorem webPuts_eq {s : Finset String} (hs : WellFormedPrefs s)
    (body : PrefBody) : webPuts s body = newPrefsSkSet body \ s := by
  ext x
  rw [newPrefsSkSet_decomp]
  constructor
  · intro hx
    rcases Finset.mem_union.mp hx with h | h
    · obtain ⟨i, hi, rfl⟩ := mem_encSrc_elim h
      obtain ⟨hiN, hiE⟩ := Finset.mem_sdiff.mp hi
      refine Finset.mem_sdiff.mpr
        ⟨Finset.mem_union_left _ (mem_encSrc.mpr hiN), fun hmem => ?_⟩
      rw [wellFormed_decomp hs] at hmem
      rcases Finset.mem_union.mp hmem with hm | hm
      · exact hiE (mem_encSrc.mp hm)
      · obtain ⟨j, _, hj⟩ := mem_encGen_elim hm
        exact src_ne_gen i j hj
    · obtain ⟨i, hi, rfl⟩ := mem_encGen_elim h
      obtain ⟨hiN, hiE⟩ := Finset.mem_sdiff.mp hi
      refine Finset.mem_sdiff.mpr
        ⟨Finset.mem_union_right _ (mem_encGen.mpr hiN), fun hmem => ?_⟩
      rw [wellFormed_decomp hs] at hmem
      rcases Finset.mem_union.mp hmem with hm | hm
      · obtain ⟨j, _, hj⟩ := mem_encSrc_elim hm
        exact src_ne_gen j i hj.symm
      · exact hiE (mem_encGen.mp hm)
  · intro hx
    obtain ⟨hxn, hxs⟩ := Finset.mem_sdiff.mp hx
    rcases Finset.mem_union.mp hxn with h | h
    · obtain ⟨i, hi, rfl⟩ := mem_encSrc_elim h
      apply Finset.mem_union_left
      rw [mem_encSrc]
      refine Finset.mem_sdiff.mpr ⟨mem_encSrc.mp h, fun hiE => ?_⟩
      apply hxs
      rw [wellFormed_decomp hs]
      exact Finset.mem_union_left _ (mem_encSrc.mpr hiE)
    · obtain ⟨i, hi, rfl⟩ := mem_encGen_elim h
      apply Finset.mem_union_right
      rw [mem_encGen]
      refine Finset.mem_sdiff.mpr ⟨mem_encGen.mp h, fun hiE => ?_⟩
      apply hxs
      rw [wellFormed_decomp hs]
      exact Finset.mem_union_right _ (mem_encGen.mpr hiE)

/-- After any web-reconciler call on a well-formed state, the stored
partition is exactly the encoding of the request body. -/
theorem update_user_preferences_state {s : Finset String}
    (hs : WellFormedPrefs s) (body : PrefBody) :
    (update_user_preferences s body).state = newPrefsSkSet body := by
  rw [update_user_preferences]
  split
  next h =>
    show s = newPrefsSkSet body
    have hd : webDels s body = ∅ := by
      rw [webDels]
      have h1 : parsedSources s \ (body.sources.getD []).toFinset = ∅ :=
        h.2.1
      have h2 : parsedGenres s \ (body.genres.getD []).toFinset = ∅ :=
        h.2.2.2
      simp [h1, h2, encSrc, encGen]
    have hp : webPuts s body = ∅ := by
      rw [webPuts]
      have h1 : (body.sources.getD []).toFinset \ parsedSources s = ∅ := h.1
      have h2 : (body.genres.getD []).toFinset \ parsedGenres s = ∅ :=
        h.2.2.1
      simp [h1, h2, encSrc, encGen]
    have hd2 := webDels_eq hs body
    have hp2 := webPuts_eq hs body
    rw [hd] at hd2
    rw [hp] at hp2
    have hsub1 : s ⊆ newPrefsSkSet body :=
      Finset.sdiff_eq_empty_iff_subset.mp hd2.symm
    have hsub2 : newPrefsSkSet body ⊆ s :=
      Finset.sdiff_eq_empty_iff_subset.mp hp2.symm
    exact Finset.Subset.antisymm hsub1 hsub2
  next h =>
    show (s \ webDels s body) ∪ webPuts s body = newPrefsSkSet body
    rw [webDels_eq hs body, webPuts_eq hs body]
    ext x
    simp only [Finset.mem_union, Finset.mem_sdiff, not_and, not_not]
    constructor
    · rintro (⟨hx, hn⟩ | ⟨hn, _⟩)
      · by_cases hm : x ∈ newPrefsSkSet body
        · exact hm
        · exact absurd (hn hx) hm
      · exact hn
    · intro hn
      by_cases hx : x ∈ s
      · exact Or.inl ⟨hx, fun _ => hn⟩
      · exact Or.inr ⟨hn, hx⟩

/-- The encoding of any request body is itself a well-formed state, so
sequential web-reconciler calls stay in well-formed states. -/
theorem newPrefsSkSet_wellFormed (body : PrefBody) :
    WellFormedPrefs (newPrefsSkSet body) := by
  intro sk hsk
  rw [newPrefsSkSet_decomp] at hsk
  rcases Finset.mem_union.mp hsk with h | h
  · obtain ⟨i, _, rfl⟩ := mem_encSrc_elim h
    exact Or.inl (hasPrefix_src_append i)
  · obtain ⟨i, _, rfl⟩ := mem_encGen_elim h
    exact Or.inr (hasPrefix_gen_append i)

/-- The web reconciler returns `True` on every (error-free) call, no-op or
not. -/
theorem update_user_preferences_ok (s : Finset String) (body : PrefBody) :
    (update_user_preferences s body).ok = true := by
  rw [update_user_preferences]
  split <;> rfl

/-- Claim C1: applying preference bodies P1 then P2 in sequence — through
`set_user_preferences` of `preferences.py` from any partition state, or
through `update_user_preferences` of `web_api.py` from any well-formed
partition state — leaves the stored row set exactly equal to the encoding
of P2: one `source:<id>` key per desired source id, one `genre:<id>` key
per desired genre id, and nothing else, regardless of P1. -/
theorem claim_C1 (s : Finset String) (P1 P2 : PrefBody)
    (hs : WellFormedPrefs s) :
    (set_user_preferences (set_user_preferences s P1).state P2).state =
      newPrefsSkSet P2 ∧
    (update_user_preferences (update_user_preferences s P1).state P2).state
      = newPrefsSkSet P2 ∧
    (∀ sk, sk ∈ newPrefsSkSet P2 ↔
      ((∃ i ∈ P2.sources.getD [], sk = "source:" ++ i) ∨
       (∃ g ∈ P2.genres.getD [], sk = "genre:" ++ g))) := by
  refine ⟨set_user_preferences_state _ P2, ?_, ?_⟩
  · have h1 := update_user_preferences_state hs P1
    rw [h1] at *
    exact update_user_preferences_state (newPrefsSkSet_wellFormed P1) P2
  · intro sk
    simp [newPrefsSkSet, eq_comm]

theorem claim_C1_witness :
    WellFormedPrefs (∅ : Finset String) ∧
    (set_user_preferences
        (set_user_preferences ∅ ⟨some ["A"], none⟩).state
        ⟨some ["B"], some ["X"]⟩).state =
      newPrefsSkSet ⟨some ["B"], some ["X"]⟩ := by
  have hw : WellFormedPrefs (∅ : Finset String) := by
    intro sk h
    simp at h
  exact ⟨hw, (claim_C1 ∅ ⟨some ["A"], none⟩ ⟨some ["B"], some ["X"]⟩ hw).1⟩

/-- Claim C3: the reconciler's single batch write puts exactly the desired
keys absent from the store and deletes exactly the stored keys no longer
desired; a key in both the existing and the desired set is never written
at all, re-applying the same body performs zero writes on the second call,
and reconciling from sources `{A}` to `{A, B}` issues exactly one put
(`source:B`) and zero deletes. -/
theorem claim_C3 (s : Finset String) (body : PrefBody) :
    (set_user_preferences s body).puts = newPrefsSkSet body \ s ∧
    (set_user_preferences s body).dels = s \ newPrefsSkSet body ∧
    (∀ sk ∈ s, sk ∈ newPrefsSkSet body →
      sk ∉ (set_user_preferences s body).puts ∧
      sk ∉ (set_user_preferences s body).dels) ∧
    (set_user_preferences (set_user_preferences s body).state body).puts
      = ∅ ∧
    (set_user_preferences (set_user_preferences s body).state body).dels
      = ∅ ∧
    (set_user_preferences {"source:A"} ⟨some ["A", "B"], none⟩).puts =
      {"source:B"} ∧
    (set_user_preferences {"source:A"} ⟨some ["A", "B"], none⟩).dels = ∅ := by
  refine ⟨set_user_preferences_puts s body, set_user_preferences_dels s body,
    ?_, ?_, ?_, by decide, by decide⟩
  · intro sk hsk hnew
    rw [set_user_preferences_puts, set_user_preferences_dels]
    constructor
    · intro hmem
      exact (Finset.mem_sdiff.mp hmem).2 hsk
    · intro hmem
      exact (Finset.mem_sdiff.mp hmem).2 hnew
  · rw [set_user_preferences_puts, set_user_preferences_state,
      Finset.sdiff_self]
  · rw [set_user_preferences_dels, set_user_preferences_state,
      Finset.sdiff_self]

theorem claim_C3_witness :
    ("source:A" ∈ ({"source:A"} : Finset String) ∧
     "source:A" ∈ newPrefsSkSet ⟨some ["A", "B"], none⟩) ∧
    "source:A" ∉
        (set_user_preferences {"source:A"} ⟨some ["A", "B"], none⟩).puts ∧
    "source:A" ∉
        (set_user_preferences {"source:A"} ⟨some ["A", "B"], none⟩).dels :=
  ⟨⟨by decide, by decide⟩,
    (claim_C3 {"source:A"} ⟨some ["A", "B"], none⟩).2.2.1 "source:A"
      (by decide) (by decide)⟩

/-- Claim C4 as stated is false on the code: the no-op outcome is NOT
distinguishable from the applied outcome by status signal.  Concretely,
`set_user_preferences` answers 204 both for the no-op call (empty body on
an empty store: zero writes) and for a call that applied a non-empty
delta, and the web handler's `update_user_preferences` returns `True`
(serialized as a 200) in both situations as well. -/
theorem claim_C4_counterexample :
    (set_user_preferences ∅ ⟨some ["A"], none⟩).puts ≠ ∅ ∧
    (set_user_preferences ∅ ⟨none, none⟩).puts = ∅ ∧
    (set_user_preferences ∅ ⟨none, none⟩).dels = ∅ ∧
    (set_user_preferences ∅ ⟨none, none⟩).statusCode =
      (set_user_preferences ∅ ⟨some ["A"], none⟩).statusCode ∧
    (update_user_preferences ∅ ⟨none, none⟩).ok =
      (update_user_preferences ∅ ⟨some ["A"], none⟩).ok := by
  refine ⟨by decide, by decide, by decide, by decide, by decide⟩

/-- Claim C4, amended: when both delta sets are empty the reconciler
performs no writes and reports success, but the reported outcome carries
the same status signal as an applied update — `set_user_preferences`
answers 204 on every error-free call and `update_user_preferences` returns
`True` on every error-free call, so the no-op is not distinguishable from
the applied outcome by status. -/
theorem claim_C4 (s : Finset String) (body : PrefBody)
    (h : newPrefsSkSet body \ s = ∅ ∧ s \ newPrefsSkSet body = ∅) :
    (set_user_preferences s body).puts = ∅ ∧
    (set_user_preferences s body).dels = ∅ ∧
    (set_user_preferences s body).statusCode = 204 ∧
    (∀ s' body', (set_user_preferences s' body').statusCode = 204) ∧
    (∀ s' body', (update_user_preferences s' body').ok = true) := by
  refine ⟨?_, ?_, set_user_preferences_statusCode s body,
    fun s' body' => set_user_preferences_statusCode s' body',
    fun s' body' => update_user_preferences_ok s' body'⟩
  · rw [set_user_preferences_puts]
    exact h.1
  · rw [set_user_preferences_dels]
    exact h.2

theorem claim_C4_witness :
    (newPrefsSkSet ⟨none, none⟩ \ (∅ : Finset String) = ∅ ∧
      (∅ : Finset String) \ newPrefsSkSet ⟨none, none⟩ = ∅) ∧
    (set_user_preferences ∅ ⟨none, none⟩).puts = ∅ ∧
    (set_user_preferences ∅ ⟨none, none⟩).statusCode = 204 :=
  ⟨⟨by decide, by decide⟩,
    (claim_C4 ∅ ⟨none, none⟩ ⟨by decide, by decide⟩).1,
    (claim_C4 ∅ ⟨none, none⟩ ⟨by decide, by decide⟩).2.2.1⟩

/-- Claim C10: a request body with the `sources` key or the `genres` key
absent is reconciled as the empty set for that dimension, and the empty
body `{}` deletes every stored preference row of the user and reports
success (204 from `set_user_preferences`, `True` from the web handler);
the request is neither rejected nor treated as leave-unchanged. -/
theorem claim_C10 (s : Finset String) :
    newPrefsSkSet ⟨none, none⟩ = ∅ ∧
    (set_user_preferences s ⟨none, none⟩).state = ∅ ∧
    (set_user_preferences s ⟨none, none⟩).dels = s ∧
    (set_user_preferences s ⟨none, none⟩).statusCode = 204 ∧
    (∀ src, newPrefsSkSet ⟨some src, none⟩ =
      newPrefsSkSet ⟨some src, some []⟩) ∧
    (∀ gen, newPrefsSkSet ⟨none, some gen⟩ =
      newPrefsSkSet ⟨some [], some gen⟩) ∧
    (WellFormedPrefs s →
      (update_user_preferences s ⟨none, none⟩).state = ∅ ∧
      (update_user_preferences s ⟨none, none⟩).ok = true) := by
  have hempty : newPrefsSkSet ⟨none, none⟩ = ∅ := by decide
  refine ⟨hempty, ?_, ?_, set_user_preferences_statusCode s _,
    fun src => rfl, fun gen => rfl, fun hs => ⟨?_, update_user_preferences_ok s _⟩⟩
  · rw [set_user_preferences_state, hempty]
  · rw [set_user_preferences_dels, hempty, Finset.sdiff_empty]
  · rw [update_user_preferences_state hs, hempty]

theorem claim_C10_witness :
    WellFormedPrefs ({"source:A"} : Finset String) ∧
    (update_user_preferences {"source:A"} ⟨none, none⟩).state = ∅ := by
  have hw : WellFormedPrefs ({"source:A"} : Finset String) := by
    intro sk h
    rw [Finset.mem_singleton] at h
    subst h
    exact Or.inl (by decide)
  exact ⟨hw, ((claim_C10 {"source:A"}).2.2.2.2.2.2 hw).1⟩

/-! ### Ingestion deduplicator (`consumer.py` `lambda_handler`)

The Kinesis consumer decodes each record, keeps the payloads that decoded
and carry an `id` (`records_to_save`), then walks them once with a
process-local `processed_keys` set: the canonical row `(title:<id>,
record)` is queued unless its key was already queued, and — only when both
`source_ids` and `genre_ids` are non-empty — one attribute-free index row
`(source:<s>:genre:<g>, title:<id>)` per pair of the cross product is
queued unless already queued.  The queue is flushed through one DynamoDB
batch write, whose per-item semantics is an upsert by full key. -/

/-- A decoded title payload (`event_data['payload']` with an `id`).
Attribute fields other than the two id lists do not influence the write
path; `title` stands for them. -/
structure TitlePayload where
  id : String
  title : Option String
  source_ids : List String
  genre_ids : List String
  deriving DecidableEq

/-- `f"source:{source_id}:genre:{genre_id}"` (consumer.py line 81). -/
def indexPk (s g : String) : String := "source:" ++ s ++ ":genre:" ++ g

/-- Key of the canonical row: `(f"title:{id}", 'record')`. -/
def canonicalKey (p : TitlePayload) : String × String :=
  ("title:" ++ p.id, "record")

/-- Key of an index row: `(f"source:{s}:genre:{g}", f"title:{id}")`. -/
def indexKey (s g tid : String) : String × String :=
  (indexPk s g, "title:" ++ tid)

/-- A stored row: full key plus the `data` attribute (canonical rows carry
the payload, index rows carry none). -/
abbrev Row : Type := (String × String) × Option TitlePayload

def rowKey (r : Row) : String × String := r.1

/-- The in-flight state of one batch build: the `processed_keys` set and
the queue of puts in order. -/
structure BatchState where
  processed : Finset (String × String)
  queue : List Row

/-- Queue a put for key `k` with data `d` unless `k` was already queued
(`if (pk, sk) not in processed_keys`). -/
def addIfNew (st : BatchState) (k : String × String) (d : Option TitlePayload) :
    BatchState :=
  if k ∈ st.processed then st
  else ⟨insert k st.processed, st.queue ++ [(k, d)]⟩

/-- One loop iteration of consumer.py lines 59-89 for one payload: queue
the canonical put, then — unless a dimension is empty — the index puts of
the cross product, each under the `processed_keys` guard. -/
def processPayload (st : BatchState) (p : TitlePayload) : BatchState :=
  if p.source_ids = [] ∨ p.genre_ids = [] then
    addIfNew st (canonicalKey p) (some p)
  else
    p.source_ids.foldl (fun a s =>
      p.genre_ids.foldl (fun b g => addIfNew b (indexKey s g p.id) none) a)
      (addIfNew st (canonicalKey p) (some p))

/-- `records_to_save`: the records whose payload decoded and has an id
(`none` models a record dropped by consumer.py lines 44-53). -/
def recordsToSave (records : List (Option TitlePayload)) : List TitlePayload :=
  records.filterMap id

/-- The full put queue that one consumer invocation hands to the batch
writer. -/
def batchQueue (records : List (Option TitlePayload)) : List Row :=
  ((recordsToSave records).foldl processPayload ⟨∅, []⟩).queue

/-- DynamoDB `put_item` semantics on the table: upsert by full key. -/
def putRow (store : List Row) (r : Row) : List Row :=
  if store.any (fun x => rowKey x = rowKey r) then
    store.map (fun x => if rowKey x = rowKey r then r else x)
  else store ++ [r]

/-- One consumer invocation: build the queue, flush it to the table. -/
def consumer_handler (store : List Row) (records : List (Option TitlePayload)) :
    List Row :=
  (batchQueue records).foldl putRow store

/-- DynamoDB's table invariant: one row per full key. -/
def KeysUnique (store : List Row) : Prop := (store.map rowKey).Nodup

/-- Number of rows of the table holding the key `k`. -/
def countKey (store : List Row) (k : String × String) : Nat :=
  (store.filter (fun r => rowKey r = k)).length

theorem addIfNew_processed (st : BatchState) (k : String × String)
    (d : Option TitlePayload) :
    (addIfNew st k d).processed = insert k st.processed := by
  rw [addIfNew]
  split
  next h => exact (Finset.insert_eq_self.mpr h).symm
  next h => rfl

theorem addIfNew_of_mem {st : BatchState} {k : String × String}
    (d : Option TitlePayload) (h : k ∈ st.processed) : addIfNew st k d = st := by
  rw [addIfNew, if_pos h]

theorem processed_subset_addIfNew (st : BatchState) (k : String × String)
    (d : Option TitlePayload) : st.processed ⊆ (addIfNew st k d).processed := by
  rw [addIfNew_processed]
  exact Finset.subset_insert _ _

theorem processed_subset_genreFold (s tid : String) (gl : List String)
    (st : BatchState) :
    st.processed ⊆
      (gl.foldl (fun b g => addIfNew b (indexKey s g tid) none) st).processed := by
  induction gl generalizing st with
  | nil => exact Finset.Subset.refl _
  | cons g0 gl ih =>
    rw [List.foldl_cons]
    exact Finset.Subset.trans (processed_subset_addIfNew st _ none) (ih _)

theorem processed_subset_srcFold (tid : String) (sl gl : List String)
    (st : BatchState) :
    st.processed ⊆
      (sl.foldl (fun a s =>
        gl.foldl (fun b g => addIfNew b (indexKey s g tid) none) a) st).processed := by
  induction sl generalizing st with
  | nil => exact Finset.Subset.refl _
  | cons s0 sl ih =>
    rw [List.foldl_cons]
    exact Finset.Subset.trans (processed_subset_genreFold s0 tid gl st) (ih _)

theorem mem_processed_genreFold (s tid : String) (gl : List String)
    (st : BatchState) {g : String} (hg : g ∈ gl) :
    indexKey s g tid ∈
      (gl.foldl (fun b g => addIfNew b (indexKey s g tid) none) st).processed := by
  induction gl generalizing st with
  | nil => cases hg
  | cons g0 gl ih =>
    rw [List.foldl_cons]
    rcases List.mem_cons.mp hg with rfl | hg
    · apply processed_subset_genreFold
      rw [addIfNew_processed]
      exact Finset.mem_insert_self _ _
    · exact ih _ hg

theorem mem_processed_srcFold (tid : String) (sl gl : List String)
    (st : BatchState) {s g : String} (hs : s ∈ sl) (hg : g ∈ gl) :
    indexKey s g tid ∈
      (sl.foldl (fun a s =>
        gl.foldl (fun b g => addIfNew b (indexKey s g tid) none) a) st).processed := by
  induction sl generalizing st with
  | nil => cases hs
  | cons s0 sl ih =>
    rw [List.foldl_cons]
    rcases List.mem_cons.mp hs with rfl | hs
    · apply processed_subset_srcFold
      exact mem_processed_genreFold s tid gl st hg
    · exact ih _ hs

theorem genreFold_of_mem (s tid : String) (gl : List String) (st : BatchState)
    (h : ∀ g ∈ gl, indexKey s g tid ∈ st.processed) :
    gl.foldl (fun b g => addIfNew b (indexKey s g tid) none) st = st := by
  induction gl with
  | nil => rfl
  | cons g0 gl ih =>
    rw [List.foldl_cons, addIfNew_of_mem none (h g0 (List.mem_cons_self _ _))]
    exact ih (fun g hg => h g (List.mem_cons_of_mem _ hg))

theorem srcFold_of_mem (tid : String) (sl gl : List String) (st : BatchState)
    (h : ∀ s ∈ sl, ∀ g ∈ gl, indexKey s g tid ∈ st.processed) :
    sl.foldl (fun a s =>
      gl.foldl (fun b g => addIfNew b (indexKey s g tid) none) a) st = st := by
  induction sl with
  | nil => rfl
  | cons s0 sl ih =>
    rw [List.foldl_cons,
      genreFold_of_mem s0 tid gl st (h s0 (List.mem_cons_self _ _))]
    exact ih (fun s hs g hg => h s (List.mem_cons_of_mem _ hs) g hg)

/-- After processing a payload, all its keys are in `processed_keys`. -/
theorem processPayload_keys (st : BatchState) (p : TitlePayload) :
    canonicalKey p ∈ (processPayload st p).processed ∧
    ∀ s ∈ p.source_ids, ∀ g ∈ p.genre_ids,
      indexKey s g p.id ∈ (processPayload st p).processed := by
  rw [processPayload]
  have hck : canonicalKey p ∈ (addIfNew st (canonicalKey p) (some p)).processed := by
    rw [addIfNew_processed]
    exact Finset.mem_insert_self _ _
  split
  next hemp =>
    refine ⟨hck, fun s hs g hg => ?_⟩
    rcases hemp with h | h
    · rw [h] at hs; cases hs
    · rw [h] at hg; cases hg
  next hemp =>
    refine ⟨processed_subset_srcFold _ _ _ _ hck, fun s hs g hg => ?_⟩
    exact mem_processed_srcFold p.id _ _ _ hs hg

/-- Re-processing a payload whose keys are all queued changes nothing. -/
theorem processPayload_of_mem (st : BatchState) (p : TitlePayload)
    (hck : canonicalKey p ∈ st.processed)
    (hik : ∀ s ∈ p.source_ids, ∀ g ∈ p.genre_ids,
      indexKey s g p.id ∈ st.processed) :
    processPayload st p = st := by
  rw [processPayload]
  split
  next => exact addIfNew_of_mem (some p) hck
  next =>
    rw [addIfNew_of_mem (some p) hck]
    exact srcFold_of_mem p.id _ _ st hik

theorem processPayload_idem (st : BatchState) (p : TitlePayload) :
    processPayload (processPayload st p) p = processPayload st p := by
  obtain ⟨h1, h2⟩ := processPayload_keys st p
  exact processPayload_of_mem _ p h1 h2

/-- Invariant of the batch build: the queued keys are duplicate-free and
are exactly the `processed_keys` set. -/
def QInv (st : BatchState) : Prop :=
  (st.queue.map rowKey).Nodup ∧
    ∀ k, k ∈ st.processed ↔ k ∈ st.queue.map rowKey

theorem qInv_init : QInv ⟨∅, []⟩ := by
  constructor
  · exact List.nodup_nil
  · intro k
    simp

theorem qInv_addIfNew (st : BatchState) (k : String × String)
    (d : Option TitlePayload) (h : QInv st) : QInv (addIfNew st k d) := by
  rw [addIfNew]
  split
  next => exact h
  next hk =>
    have hkq : k ∉ st.queue.map rowKey := fun hm => hk ((h.2 k).mpr hm)
    constructor
    · show (List.map rowKey (st.queue ++ [(k, d)])).Nodup
      rw [List.map_append]
      refine List.Nodup.append h.1 (List.nodup_singleton _) ?_
      intro a ha hb
      rw [List.map_cons, List.map_nil, List.mem_singleton] at hb
      subst hb
      exact hkq ha
    · intro k'
      show k' ∈ insert k st.processed ↔ k' ∈ List.map rowKey (st.queue ++ [(k, d)])
      rw [Finset.mem_insert, List.map_append, List.mem_append, h.2 k']
      simp [rowKey, or_comm]

theorem qInv_foldl {α : Type} (F : BatchState → α → BatchState)
    (hF : ∀ st a, QInv st → QInv (F st a)) (l : List α) (st : BatchState)
    (h : QInv st) : QInv (l.foldl F st) := by
  induction l generalizing st with
  | nil => exact h
  | cons a l ih =>
    rw [List.foldl_cons]
    exact ih _ (hF st a h)

theorem qInv_processPayload (st : BatchState) (p : TitlePayload)
    (h : QInv st) : QInv (processPayload st p) := by
  rw [processPayload]
  split
  next => exact qInv_addIfNew st _ _ h
  next =>
    refine qInv_foldl _ (fun st' s hs => ?_) _ _ (qInv_addIfNew st _ _ h)
    exact qInv_foldl _ (fun st'' g hg => qInv_addIfNew st'' _ none hg) _ _ hs

theorem qInv_batch (records : List (Option TitlePayload)) :
    QInv ((recordsToSave records).foldl processPayload ⟨∅, []⟩) :=
  qInv_foldl processPayload (fun st p h => qInv_processPayload st p h) _ _
    qInv_init

/-- No batch write of the consumer ever contains two puts for the same
full key. -/
theorem batchQueue_nodup (records : List (Option TitlePayload)) :
    ((batchQueue records).map rowKey).Nodup :=
  (qInv_batch records).1

/-! Store-side put semantics. -/

theorem putRow_any_map (store : List Row) (r : Row)
    (h : store.any (fun x => rowKey x = rowKey r) = true) :
    (putRow store r).map rowKey = store.map rowKey := by
  rw [putRow, if_pos h, List.map_map]
  apply List.map_congr_left
  intro x _
  show rowKey (if rowKey x = rowKey r then r else x) = rowKey x
  split
  next he => rw [he]
  next => rfl

theorem keysUnique_putRow (store : List Row) (r : Row)
    (h : KeysUnique store) : KeysUnique (putRow store r) := by
  by_cases ha : store.any (fun x => rowKey x = rowKey r) = true
  · unfold KeysUnique
    rw [putRow_any_map store r ha]
    exact h
  · rw [putRow, if_neg ha]
    unfold KeysUnique
    rw [List.map_append]
    refine List.Nodup.append h (List.nodup_singleton _) ?_
    intro a haMem hb
    rw [List.map_cons, List.map_nil, List.mem_singleton] at hb
    subst hb
    apply ha
    rw [List.any_eq_true]
    obtain ⟨x, hx, hxk⟩ := List.mem_map.mp haMem
    exact ⟨x, hx, by simp [hxk]⟩

theorem mem_putRow_self (store : List Row) (r : Row) : r ∈ putRow store r := by
  rw [putRow]
  split
  next h =>
    obtain ⟨x, hx, hxk⟩ := List.any_eq_true.mp h
    rw [decide_eq_true_eq] at hxk
    exact List.mem_map.mpr ⟨x, hx, by rw [if_pos hxk]⟩
  next =>
    exact List.mem_append_right _ (List.mem_singleton_self r)

theorem mem_putRow_of_ne (store : List Row) (r' r : Row) (h : r ∈ store)
    (hne : rowKey r ≠ rowKey r') : r ∈ putRow store r' := by
  rw [putRow]
  split
  next =>
    exact List.mem_map.mpr ⟨r, h, by rw [if_neg hne]⟩
  next =>
    exact List.mem_append_left _ h

theorem keysUnique_inj {store : List Row} (hu : KeysUnique store) {x y : Row}
    (hx : x ∈ store) (hy : y ∈ store) (hk : rowKey x = rowKey y) : x = y :=
  List.inj_on_of_nodup_map hu hx hy hk

theorem putRow_of_mem (store : List Row) (r : Row) (hu : KeysUnique store)
    (h : r ∈ store) : putRow store r = store := by
  have ha : store.any (fun x => rowKey x = rowKey r) = true := by
    rw [List.any_eq_true]
    exact ⟨r, h, by simp⟩
  rw [putRow, if_pos ha]
  conv_rhs => rw [← List.map_id store]
  apply List.map_congr_left
  intro x hx
  show (if rowKey x = rowKey r then r else x) = x
  split
  next hk => exact (keysUnique_inj hu hx h hk).symm
  next => rfl

theorem keysUnique_foldl (rows : List Row) (store : List Row)
    (hu : KeysUnique store) : KeysUnique (rows.foldl putRow store) := by
  induction rows generalizing store with
  | nil => exact hu
  | cons r rows ih =>
    rw [List.foldl_cons]
    exact ih _ (keysUnique_putRow store r hu)

theorem mem_foldl_putRow_preserved (rows : List Row) (store : List Row)
    (r : Row) (h : r ∈ store) (hk : rowKey r ∉ rows.map rowKey) :
    r ∈ rows.foldl putRow store := by
  induction rows generalizing store with
  | nil => exact h
  | cons r' rows ih =>
    rw [List.foldl_cons]
    rw [List.map_cons, List.mem_cons, not_or] at hk
    exact ih _ (mem_putRow_of_ne store r' r h hk.1) hk.2

theorem mem_foldl_putRow (rows : List Row) (store : List Row)
    (hnd : (rows.map rowKey).Nodup) (r : Row) (hr : r ∈ rows) :
    r ∈ rows.foldl putRow store := by
  induction rows generalizing store with
  | nil => cases hr
  | cons r0 rows ih =>
    rw [List.foldl_cons]
    rw [List.map_cons, List.nodup_cons] at hnd
    rcases List.mem_cons.mp hr with rfl | hr
    · exact mem_foldl_putRow_preserved rows _ r (mem_putRow_self store r) hnd.1
    · exact ih _ hnd.2 hr

theorem foldl_putRow_of_subset (rows : List Row) (store : List Row)
    (hu : KeysUnique store) (h : ∀ r ∈ rows, r ∈ store) :
    rows.foldl putRow store = store := by
  induction rows with
  | nil => rfl
  | cons r rows ih =>
    rw [List.foldl_cons, putRow_of_mem store r hu (h r (List.mem_cons_self _ _))]
    exact ih (fun r' hr' => h r' (List.mem_cons_of_mem _ hr'))

theorem countKey_eq_one {store : List Row} (hu : KeysUnique store)
    {k : String × String} (h : ∃ r ∈ store, rowKey r = k) :
    countKey store k = 1 := by
  induction store with
  | nil => obtain ⟨r, hr, _⟩ := h; cases hr
  | cons r0 rows ih =>
    unfold KeysUnique at hu
    rw [List.map_cons, List.nodup_cons] at hu
    rw [countKey, List.filter_cons]
    by_cases hk : rowKey r0 = k
    · rw [if_pos (by simp [hk])]
      rw [List.length_cons]
      have hnil : rows.filter (fun r => decide (rowKey r = k)) = [] := by
        rw [List.filter_eq_nil_iff]
        intro a ha hcontra
        rw [decide_eq_true_eq] at hcontra
        exact hu.1 (List.mem_map.mpr ⟨a, ha, by rw [hcontra, hk]⟩)
      rw [hnil]
      rfl
    · rw [if_neg (by simp [hk])]
      apply ih hu.2
      obtain ⟨r, hr, hrk⟩ := h
      rcases List.mem_cons.mp hr with rfl | hr
      · exact absurd hrk hk
      · exact ⟨r, hr, hrk⟩

/-- Helper for the claim proofs: a key queued during the batch build ends
up as the key of exactly one row of the table after the flush. -/
theorem countKey_consumer (store : List Row)
    (records : List (Option TitlePayload)) (hu : KeysUnique store)
    (k : String × String)
    (hk : k ∈ ((recordsToSave records).foldl processPayload ⟨∅, []⟩).processed) :
    countKey (consumer_handler store records) k = 1 := by
  have hq := ((qInv_batch records).2 k).mp hk
  obtain ⟨r, hr, hrk⟩ := List.mem_map.mp hq
  exact countKey_eq_one (keysUnique_foldl _ store hu)
    ⟨r, mem_foldl_putRow _ store (batchQueue_nodup records) r hr, hrk⟩

/-- Claim C2: ingesting the same title payload twice — in one Kinesis
batch or in two separate consumer invocations — produces the same table as
ingesting it once: exactly one canonical row `(title:<id>, record)` and
exactly one index row per (source, genre) pair of the payload, and no
consumer batch write ever queues two puts for the same key. -/
theorem claim_C2 (store : List Row) (p : TitlePayload)
    (hu : KeysUnique store) :
    consumer_handler store [some p, some p] = consumer_handler store [some p] ∧
    consumer_handler (consumer_handler store [some p]) [some p] =
      consumer_handler store [some p] ∧
    (∀ records, ((batchQueue records).map rowKey).Nodup) ∧
    countKey (consumer_handler store [some p]) (canonicalKey p) = 1 ∧
    (∀ s ∈ p.source_ids, ∀ g ∈ p.genre_ids,
      countKey (consumer_handler store [some p]) (indexKey s g p.id) = 1) := by
  refine ⟨?_, ?_, batchQueue_nodup, ?_, ?_⟩
  · show (batchQueue [some p, some p]).foldl putRow store =
      (batchQueue [some p]).foldl putRow store
    have hb : batchQueue [some p, some p] = batchQueue [some p] :=
      congrArg BatchState.queue (processPayload_idem ⟨∅, []⟩ p)
    rw [hb]
  · exact foldl_putRow_of_subset _ _ (keysUnique_foldl _ store hu)
      (fun r hr => mem_foldl_putRow _ store (batchQueue_nodup [some p]) r hr)
  · exact countKey_consumer store [some p] hu _
      (processPayload_keys ⟨∅, []⟩ p).1
  · intro s hs g hg
    exact countKey_consumer store [some p] hu _
      ((processPayload_keys ⟨∅, []⟩ p).2 s hs g hg)

theorem claim_C2_witness :
    KeysUnique ([] : List Row) ∧
    countKey
      (consumer_handler [] [some ⟨"T1", some "t", ["A"], ["X"]⟩])
      (canonicalKey ⟨"T1", some "t", ["A"], ["X"]⟩) = 1 := by
  have hu : KeysUnique ([] : List Row) := by
    show (List.map rowKey []).Nodup
    exact List.nodup_nil
  exact ⟨hu, (claim_C2 [] ⟨"T1", some "t", ["A"], ["X"]⟩ hu).2.2.2.1⟩

/-! Provenance of queued rows, for the index-row claims. -/

theorem addIfNew_queue_mem {st : BatchState} {k : String × String}
    {d : Option TitlePayload} {r : Row} (hr : r ∈ (addIfNew st k d).queue) :
    r ∈ st.queue ∨ r = (k, d) := by
  rw [addIfNew] at hr
  split at hr
  next => exact Or.inl hr
  next =>
    rcases List.mem_append.mp hr with h | h
    · exact Or.inl h
    · exact Or.inr (List.mem_singleton.mp h)

theorem queue_genreFold_mem (s tid : String) (gl : List String)
    (st : BatchState) (r : Row)
    (hr : r ∈ (gl.foldl (fun b g => addIfNew b (indexKey s g tid) none) st).queue) :
    r ∈ st.queue ∨ ∃ g ∈ gl, r = (indexKey s g tid, none) := by
  induction gl generalizing st with
  | nil => exact Or.inl hr
  | cons g0 gl ih =>
    rw [List.foldl_cons] at hr
    rcases ih _ hr with h | ⟨g, hg, rfl⟩
    · rcases addIfNew_queue_mem h with h' | rfl
      · exact Or.inl h'
      · exact Or.inr ⟨g0, List.mem_cons_self _ _, rfl⟩
    · exact Or.inr ⟨g, List.mem_cons_of_mem _ hg, rfl⟩

theorem queue_srcFold_mem (tid : String) (sl gl : List String)
    (st : BatchState) (r : Row)
    (hr : r ∈ (sl.foldl (fun a s =>
      gl.foldl (fun b g => addIfNew b (indexKey s g tid) none) a) st).queue) :
    r ∈ st.queue ∨ ∃ s ∈ sl, ∃ g ∈ gl, r = (indexKey s g tid, none) := by
  induction sl generalizing st with
  | nil => exact Or.inl hr
  | cons s0 sl ih =>
    rw [List.foldl_cons] at hr
    rcases ih _ hr with h | ⟨s, hs, g, hg, rfl⟩
    · rcases queue_genreFold_mem s0 tid gl st r h with h' | ⟨g, hg, rfl⟩
      · exact Or.inl h'
      · exact Or.inr ⟨s0, List.mem_cons_self _ _, g, hg, rfl⟩
    · exact Or.inr ⟨s, List.mem_cons_of_mem _ hs, g, hg, rfl⟩

theorem queue_processPayload_mem (st : BatchState) (p : TitlePayload)
    (r : Row) (hr : r ∈ (processPayload st p).queue) :
    r ∈ st.queue ∨ r = (canonicalKey p, some p) ∨
      ∃ s ∈ p.source_ids, ∃ g ∈ p.genre_ids, r = (indexKey s g p.id, none) := by
  rw [processPayload] at hr
  split at hr
  next =>
    rcases addIfNew_queue_mem hr with h | rfl
    · exact Or.inl h
    · exact Or.inr (Or.inl rfl)
  next =>
    rcases queue_srcFold_mem p.id _ _ _ r hr with h | ⟨s, hs, g, hg, rfl⟩
    · rcases addIfNew_queue_mem h with h' | rfl
      · exact Or.inl h'
      · exact Or.inr (Or.inl rfl)
    · exact Or.inr (Or.inr ⟨s, hs, g, hg, rfl⟩)

theorem queue_payloadFold_mem (ps : List TitlePayload) (st : BatchState)
    (r : Row) (hr : r ∈ (ps.foldl processPayload st).queue) :
    r ∈ st.queue ∨ ∃ p ∈ ps, r = (canonicalKey p, some p) ∨
      ∃ s ∈ p.source_ids, ∃ g ∈ p.genre_ids, r = (indexKey s g p.id, none) := by
  induction ps generalizing st with
  | nil => exact Or.inl hr
  | cons p0 ps ih =>
    rw [List.foldl_cons] at hr
    rcases ih _ hr with h | ⟨p, hp, hform⟩
    · rcases queue_processPayload_mem st p0 r h with h' | h'
      · exact Or.inl h'
      · exact Or.inr ⟨p0, List.mem_cons_self _ _, h'⟩
    · exact Or.inr ⟨p, List.mem_cons_of_mem _ hp, hform⟩

theorem indexPk_ne_title (s g y : String) : indexPk s g ≠ "title:" ++ y := by
  intro h
  have h1 : (indexPk s g).data.head? = some 's' := rfl
  have h2 : ("title:" ++ y).data.head? = some 't' := rfl
  rw [h, h2] at h1
  cases h1

/-- Claim C7: every index row the consumer ever queues comes from a
payload of the current batch that lists the row's source id and genre id —
in particular a payload with an empty `source_ids` or empty `genre_ids`
list never produces an index row, since the cross product is skipped. -/
theorem claim_C7 (records : List (Option TitlePayload)) (s g tid : String)
    (h : (indexPk s g, "title:" ++ tid) ∈ (batchQueue records).map rowKey) :
    ∃ p ∈ recordsToSave records, p.source_ids ≠ [] ∧ p.genre_ids ≠ [] ∧
      ∃ s' ∈ p.source_ids, ∃ g' ∈ p.genre_ids,
        (indexPk s g, "title:" ++ tid) = indexKey s' g' p.id := by
  obtain ⟨r, hr, hrk⟩ := List.mem_map.mp h
  rcases queue_payloadFold_mem (recordsToSave records) ⟨∅, []⟩ r hr
    with hnil | ⟨p, hp, hform | ⟨s', hs', g', hg', rfl⟩⟩
  · cases hnil
  · subst hform
    exact absurd (congrArg Prod.fst hrk.symm)
      (indexPk_ne_title s g p.id)
  · refine ⟨p, hp, List.ne_nil_of_mem hs', List.ne_nil_of_mem hg',
      s', hs', g', hg', hrk.symm⟩

theorem claim_C7_witness :
    (indexPk "A" "X", "title:" ++ "T1") ∈
        (batchQueue [some ⟨"T1", some "t", ["A"], ["X"]⟩]).map rowKey ∧
    ∃ p ∈ recordsToSave [some (⟨"T1", some "t", ["A"], ["X"]⟩ : TitlePayload)],
      p.source_ids ≠ [] ∧ p.genre_ids ≠ [] ∧
      ∃ s' ∈ p.source_ids, ∃ g' ∈ p.genre_ids,
        (indexPk "A" "X", "title:" ++ "T1") = indexKey s' g' p.id :=
  ⟨by decide, claim_C7 [some ⟨"T1", some "t", ["A"], ["X"]⟩] "A" "X" "T1"
    (by decide)⟩

/-! ### Key codec injectivity (claim C8) -/

theorem colon_split_unique (l1 : List Char) :
    ∀ (l2 r1 r2 : List Char), ':' ∉ l1 → ':' ∉ l2 →
      l1 ++ ':' :: r1 = l2 ++ ':' :: r2 → l1 = l2 ∧ r1 = r2 := by
  induction l1 with
  | nil =>
    intro l2 r1 r2 _ h2 heq
    cases l2 with
    | nil =>
      refine ⟨rfl, ?_⟩
      simpa using heq
    | cons c cs =>
      exfalso
      rw [List.nil_append, List.cons_append] at heq
      have hc : ':' = c := by
        have := congrArg List.head? heq
        simpa using this
      apply h2
      rw [← hc]
      exact List.mem_cons_self _ _
  | cons c cs ih =>
    intro l2 r1 r2 h1 h2 heq
    cases l2 with
    | nil =>
      exfalso
      rw [List.cons_append, List.nil_append] at heq
      have hc : c = ':' := by
        have := congrArg List.head? heq
        simpa using this
      exact h1 (hc ▸ List.mem_cons_self c cs)
    | cons d ds =>
      rw [List.cons_append, List.cons_append] at heq
      have hcd : c = d ∧ cs ++ ':' :: r1 = ds ++ ':' :: r2 := by
        constructor
        · have := congrArg List.head? heq
          simpa using this
        · have := congrArg List.tail heq
          simpa using this
      obtain ⟨h3, h4⟩ := ih ds r1 r2 (fun h => h1 (List.mem_cons_of_mem _ h))
        (fun h => h2 (List.mem_cons_of_mem _ h)) hcd.2
      exact ⟨by rw [hcd.1, h3], h4⟩

/-- Claim C8 as stated is false on the code: the RecommendationIndex
partition-key encoding `f"source:{s}:genre:{g}"` is not injective over
arbitrary id strings.  The distinct pairs `("a:genre:b", "c")` and
`("a", "b:genre:c")` collide on the partition key, and with a common title
id on the whole (pk, sk) pair. -/
theorem claim_C8_counterexample :
    indexPk "a:genre:b" "c" = indexPk "a" "b:genre:c" ∧
    ("a:genre:b", "c") ≠ ("a", "b:genre:c") ∧
    indexKey "a:genre:b" "c" "T" = indexKey "a" "b:genre:c" "T" := by
  refine ⟨by decide, by decide, ?_⟩
  show (indexPk "a:genre:b" "c", "title:" ++ "T") =
    (indexPk "a" "b:genre:c", "title:" ++ "T")
  decide

/-- Claim C8, amended: the per-kind key encodings are injective as long as
source ids contain no colon character — `source:<s>:genre:<g>` determines
(s, g) for colon-free source ids, and the UserPreference sort keys, the
canonical title partition keys, and the two preference-key kinds are
injective and mutually distinct for all id strings. -/
theorem claim_C8 (s1 g1 s2 g2 : String) (h1 : ':' ∉ s1.data)
    (h2 : ':' ∉ s2.data) :
    (indexPk s1 g1 = indexPk s2 g2 → s1 = s2 ∧ g1 = g2) ∧
    (∀ i j : String, "source:" ++ i = "source:" ++ j → i = j) ∧
    (∀ i j : String, "genre:" ++ i = "genre:" ++ j → i = j) ∧
    (∀ i j : String, "title:" ++ i = "title:" ++ j → i = j) ∧
    (∀ i j : String, "source:" ++ i ≠ "genre:" ++ j) := by
  refine ⟨?_, fun i j h => append_right_injective "source:" h,
    fun i j h => append_right_injective "genre:" h,
    fun i j h => append_right_injective "title:" h,
    fun i j => src_ne_gen i j⟩
  intro h
  have hd : "source:".data ++ (s1.data ++ ':' :: ("genre:".data ++ g1.data)) =
      "source:".data ++ (s2.data ++ ':' :: ("genre:".data ++ g2.data)) := by
    have hd0 := congrArg String.data h
    simpa [indexPk, data_append, List.append_assoc] using hd0
  have h3 := List.append_cancel_left hd
  obtain ⟨hs, hrest⟩ := colon_split_unique s1.data s2.data _ _ h1 h2 h3
  have hg := List.append_cancel_left hrest
  exact ⟨string_mk_eq hs, string_mk_eq hg⟩

theorem claim_C8_witness :
    (':' ∉ ("A" : String).data ∧ ':' ∉ ("B" : String).data) ∧
    (indexPk "A" "X" = indexPk "B" "X" → "A" = "B" ∧ "X" = "X") :=
  ⟨⟨by decide, by decide⟩,
    (claim_C8 "A" "X" "B" "X" (by decide) (by decide)).1⟩

/-! ### Recommendation resolver (`web_api.py`
`_get_titles_from_dynamo_optimized`)

The resolver loads the user's preferences, returns `[]` immediately when
either parsed dimension is empty, otherwise queries one index partition
per (source, genre) pair collecting title ids into a set, returns `[]`
when the set is empty, and otherwise batch-gets the canonical records in
chunks of 100 and keeps the titles that pass the optional filter and carry
a non-empty poster and plot. -/

/-- The `data` attribute of a canonical title row as the read path sees
it. -/
structure TitleData where
  title : Option String
  plot_overview : Option String
  poster : Option String
  user_rating : Option ℚ
  source_ids : List String
  genre_ids : List String
  deriving DecidableEq

/-- Python falsiness of `title_data.get(k)` for a string field: the key is
absent or holds the empty string. -/
def pyFalsy (o : Option String) : Bool :=
  match o with
  | none => true
  | some s => s == ""

/-- One read operation the resolver issues against the store. -/
inductive ReadOp
  | prefQuery (pk : String)
  | indexQuery (pk : String)
  | batchGet (keys : List (String × String))
  deriving DecidableEq

/-- The table as the resolver reads it: `query` yields the sort keys of a
partition, `get` the canonical item stored under a full key. -/
structure DB where
  query : String → List String
  get : String → String → Option TitleData

/-- `f"{USER_PREF_PREFIX}{user_id}"`. -/
def prefPk (u : String) : String := "userpref:" ++ u

/-- The parse loop of `get_user_preferences` (web_api.py lines 86-94):
split the partition's sort keys into source ids and genre ids in order,
skipping keys with neither prefix. -/
def parsePrefLists (sks : List String) : List String × List String :=
  sks.foldl (fun acc sk =>
    if hasPrefix "source:" sk then (acc.1 ++ [afterFirstColon sk], acc.2)
    else if hasPrefix "genre:" sk then (acc.1, acc.2 ++ [afterFirstColon sk])
    else acc) ([], [])

def userPrefLists (db : DB) (u : String) : List String × List String :=
  parsePrefLists (db.query (prefPk u))

/-- Python's `set.add`: append unless already present. -/
def setAdd (l : List String) (x : String) : List String :=
  if x ∈ l then l else l ++ [x]

/-- Step 1 of the resolver: the `title_ids_to_fetch` set collected by
querying one index partition per (source, genre) pair and adding each
referenced title id to the set. -/
def collectTitleIds (db : DB) (sources genres : List String) : List String :=
  sources.foldl (fun acc s =>
    genres.foldl (fun acc2 g =>
      ((db.query (indexPk s g)).map afterFirstColon).foldl setAdd acc2) acc) []

/-- The index-partition queries issued while collecting title ids. -/
def indexReads (sources genres : List String) : List ReadOp :=
  sources.foldl (fun acc s =>
    acc ++ genres.map (fun g => ReadOp.indexQuery (indexPk s g))) []

/-- `keys_to_get` (line 177). -/
def titleKeys (ids : List String) : List (String × String) :=
  ids.map (fun tid => ("title:" ++ tid, "record"))

/-- The 100-key chunks of `keys_to_get` (`keys_to_get[i:i + 100]` for `i`
in `range(0, len, 100)`). -/
def chunkKeys (keys : List (String × String)) : List (List (String × String)) :=
  (List.range ((keys.length + 99) / 100)).map
    (fun i => (keys.drop (100 * i)).take 100)

/-- `all_items`: the found rows of all batch-get chunks, each remembered
with its partition key; missing keys are simply absent. -/
def fetchItems (db : DB) (chunks : List (List (String × String))) :
    List (String × TitleData) :=
  chunks.foldl (fun acc ch =>
    acc ++ ch.filterMap (fun k => (db.get k.1 k.2).map (fun d => (k.1, d)))) []

/-- One entry of the response list (web_api.py lines 210-218). -/
structure OutTitle where
  id : String
  title : String
  plot_overview : String
  poster : String
  user_rating : ℚ
  source_ids : List String
  genre_ids : List String
  deriving DecidableEq

def mkOutTitle (pk : String) (d : TitleData) : OutTitle :=
  { id := afterFirstColon pk
    title := d.title.getD "Unknown"
    plot_overview := d.plot_overview.getD "No description available"
    poster := d.poster.getD ""
    user_rating := match d.user_rating with
      | some r => if r = 0 then 0 else r
      | none => 0
    source_ids := d.source_ids
    genre_ids := d.genre_ids }

/-- Step 3 of the resolver: drop items failing the optional filter, drop
items missing poster or plot, and shape the rest. -/
def filterTitles (filt : Option (TitleData → Bool))
    (items : List (String × TitleData)) : List OutTitle :=
  items.filterMap (fun pd =>
    if (match filt with | some f => !(f pd.2) | none => false) = true then none
    else if (pyFalsy pd.2.poster || pyFalsy pd.2.plot_overview) = true then none
    else some (mkOutTitle pd.1 pd.2))

/-- `_get_titles_from_dynamo_optimized` (web_api.py lines 147-223),
returning the response list together with the trace of store reads. -/
def resolve (db : DB) (u : String) (filt : Option (TitleData → Bool)) :
    List OutTitle × List ReadOp :=
  if (userPrefLists db u).1 = [] ∨ (userPrefLists db u).2 = [] then
    ([], [ReadOp.prefQuery (prefPk u)])
  else if collectTitleIds db (userPrefLists db u).1 (userPrefLists db u).2
      = [] then
    ([], ReadOp.prefQuery (prefPk u) ::
      indexReads (userPrefLists db u).1 (userPrefLists db u).2)
  else
    (filterTitles filt (fetchItems db (chunkKeys (titleKeys
        (collectTitleIds db (userPrefLists db u).1 (userPrefLists db u).2)))),
      (ReadOp.prefQuery (prefPk u) ::
        indexReads (userPrefLists db u).1 (userPrefLists db u).2) ++
        (chunkKeys (titleKeys (collectTitleIds db (userPrefLists db u).1
          (userPrefLists db u).2))).map ReadOp.batchGet)

/-- Claim C5: when the stored preferences parse to an empty source list or
an empty genre list, the resolver returns the empty sequence and its read
trace is the single preference query — no index-partition queries and no
title batch-gets. -/
theorem claim_C5 (db : DB) (u : String)
    (h : (userPrefLists db u).1 = [] ∨ (userPrefLists db u).2 = []) :
    ∀ filt, resolve db u filt = ([], [ReadOp.prefQuery (prefPk u)]) := by
  intro filt
  rw [resolve, if_pos h]

theorem claim_C5_witness :
    ((userPrefLists ⟨fun _ => [], fun _ _ => none⟩ "u").1 = [] ∨
      (userPrefLists ⟨fun _ => [], fun _ _ => none⟩ "u").2 = []) ∧
    resolve ⟨fun _ => [], fun _ _ => none⟩ "u" none =
      ([], [ReadOp.prefQuery (prefPk "u")]) :=
  ⟨Or.inl rfl, claim_C5 ⟨fun _ => [], fun _ _ => none⟩ "u" (Or.inl rfl) none⟩

theorem mem_filterTitles {filt : Option (TitleData → Bool)}
    {items : List (String × TitleData)} {t : OutTitle}
    (ht : t ∈ filterTitles filt items) :
    ∃ pd ∈ items, pyFalsy pd.2.poster = false ∧
      pyFalsy pd.2.plot_overview = false ∧ t = mkOutTitle pd.1 pd.2 := by
  obtain ⟨pd, hpd, hf⟩ := List.mem_filterMap.mp ht
  refine ⟨pd, hpd, ?_⟩
  split at hf
  next => cases hf
  next =>
    split at hf
    next => cases hf
    next hcomp =>
      rw [eq_comm, Option.some.injEq] at hf
      simp only [Bool.or_eq_true, not_or, Bool.not_eq_true] at hcomp
      exact ⟨hcomp.1, hcomp.2, hf⟩

theorem mem_fetchItems {db : DB} {chunks : List (List (String × String))}
    {pd : String × TitleData} (h : pd ∈ fetchItems db chunks) :
    ∃ ch ∈ chunks, ∃ k ∈ ch, db.get k.1 k.2 = some pd.2 ∧ pd.1 = k.1 := by
  rw [fetchItems] at h
  induction chunks using List.reverseRecOn with
  | nil => cases h
  | append_singleton chunks ch ih =>
    rw [List.foldl_append, List.foldl_cons, List.foldl_nil] at h
    rcases List.mem_append.mp h with h' | h'
    · obtain ⟨ch', hch', hk⟩ := ih h'
      exact ⟨ch', List.mem_append_left _ hch', hk⟩
    · obtain ⟨k, hk, hkd⟩ := List.mem_filterMap.mp h'
      obtain ⟨d, hd, hpd⟩ := Option.map_eq_some'.mp hkd
      refine ⟨ch, List.mem_append_right _ (List.mem_singleton_self ch),
        k, hk, ?_, ?_⟩
      · rw [hd, ← hpd]
      · rw [← hpd]

theorem mem_chunkKeys {keys : List (String × String)}
    {ch : List (String × String)} (hch : ch ∈ chunkKeys keys)
    {k : String × String} (hk : k ∈ ch) : k ∈ keys := by
  rw [chunkKeys] at hch
  obtain ⟨i, _, rfl⟩ := List.mem_map.mp hch
  exact List.mem_of_mem_drop (List.mem_of_mem_take hk)

theorem mem_titleKeys {ids : List String} {k : String × String}
    (hk : k ∈ titleKeys ids) :
    ∃ tid ∈ ids, k = ("title:" ++ tid, "record") := by
  obtain ⟨tid, htid, rfl⟩ := List.mem_map.mp hk
  exact ⟨tid, htid, rfl⟩

theorem afterFirstColon_title (x : String) :
    afterFirstColon ("title:" ++ x) = x :=
  afterFirstColon_append "title" (by decide) x

/-- Claim C6: every title in the resolver's response corresponds to a
stored canonical record whose poster and plot fields are both present and
non-empty — a title whose canonical record lacks either field is never an
element of the result, whatever the store, user, and filter are. -/
theorem claim_C6 (db : DB) (u : String) (filt : Option (TitleData → Bool))
    (t : OutTitle) (ht : t ∈ (resolve db u filt).1) :
    ∃ d, db.get ("title:" ++ t.id) "record" = some d ∧
      pyFalsy d.poster = false ∧ pyFalsy d.plot_overview = false := by
  rw [resolve] at ht
  split at ht
  next => cases ht
  next =>
    split at ht
    next => cases ht
    next =>
      obtain ⟨pd, hpd, hpo, hpl, rfl⟩ := mem_filterTitles ht
      obtain ⟨ch, hch, k, hk, hget, hpk⟩ := mem_fetchItems hpd
      obtain ⟨tid, _, rfl⟩ := mem_titleKeys (mem_chunkKeys hch hk)
      refine ⟨pd.2, ?_, hpo, hpl⟩
      have hid : (mkOutTitle pd.1 pd.2).id = tid := by
        rw [mkOutTitle]
        show afterFirstColon pd.1 = tid
        rw [hpk]
        exact afterFirstColon_title tid
      rw [hid]
      exact hget

/-- A one-user, one-title store exercising the resolver end to end. -/
def dbW : DB :=
  { query := fun pk =>
      if pk = prefPk "u" then ["source:A", "genre:X"]
      else if pk = indexPk "A" "X" then ["title:" ++ "T1"]
      else []
    get := fun pk sk =>
      if pk = "title:" ++ "T1" ∧ sk = "record" then
        some ⟨some "t", some "plot", some "poster", some 8, ["A"], ["X"]⟩
      else none }

theorem claim_C6_witness :
    mkOutTitle ("title:" ++ "T1")
        ⟨some "t", some "plot", some "poster", some 8, ["A"], ["X"]⟩ ∈
      (resolve dbW "u" none).1 ∧
    ∃ d, dbW.get ("title:" ++ (mkOutTitle ("title:" ++ "T1")
        ⟨some "t", some "plot", some "poster", some 8, ["A"], ["X"]⟩).id)
        "record" = some d ∧
      pyFalsy d.poster = false ∧ pyFalsy d.plot_overview = false := by
  have hmem : mkOutTitle ("title:" ++ "T1")
      ⟨some "t", some "plot", some "poster", some 8, ["A"], ["X"]⟩ ∈
      (resolve dbW "u" none).1 := by decide
  exact ⟨hmem, claim_C6 dbW "u" none _ hmem⟩

/-! ### Enrichment rating encoding (`enrichment.py` lines 108-125)

The enrichment step receives the fetched rating from the external API's
JSON and stores `Decimal(str(user_rating))` — the exact value denoted by
the rating's decimal string — or `Decimal('0')` when the rating is absent.
We model a decimal string by its sign, integer digits and fraction digits,
with its exact rational denotation. -/

/-- A decimal numeral string (`str(user_rating)`), by sign and digits. -/
structure DecStr where
  neg : Bool
  intDigits : List Nat
  fracDigits : List Nat
  deriving DecidableEq

def digitsVal (ds : List Nat) : Nat :=
  ds.foldl (fun acc d => 10 * acc + d) 0

/-- The exact rational a decimal string denotes — the value
`decimal.Decimal` constructs from it. -/
def decStrVal (d : DecStr) : ℚ :=
  (if d.neg then -1 else 1) *
    ((digitsVal d.intDigits : ℚ) +
      (digitsVal d.fracDigits : ℚ) / 10 ^ d.fracDigits.length)

/-- `rating_to_save = Decimal(str(user_rating)) if user_rating is not None
else Decimal('0')` (enrichment.py line 111): the exact decimal value of
the fetched rating's decimal string, or exactly 0 when absent. -/
def rating_to_save (r : Option DecStr) : ℚ :=
  match r with
  | some d => decStrVal d
  | none => 0

/-- Claim C9: the rating written to the store is the exact decimal value
denoted by the decimal string of the fetched rating, and exactly 0 when
the rating is absent; it is a faithful decimal — for the rating string
"8.1" the stored value is exactly 81/10, which no binary float (no dyadic
rational m / 2^k) equals, so storing through the decimal encoding is not a
binary-float encoding and introduces no drift. -/
theorem claim_C9 :
    rating_to_save none = 0 ∧
    (∀ d : DecStr, rating_to_save (some d) = decStrVal d) ∧
    rating_to_save (some ⟨false, [8], [1]⟩) = 81 / 10 ∧
    ¬ ∃ (m : ℤ) (k : ℕ),
      rating_to_save (some ⟨false, [8], [1]⟩) = (m : ℚ) / 2 ^ k := by
  have hval : rating_to_save (some ⟨false, [8], [1]⟩) = 81 / 10 := by
    norm_num [rating_to_save, decStrVal, digitsVal]
  refine ⟨rfl, fun d => rfl, hval, ?_⟩
  rintro ⟨m, k, hmk⟩
  rw [hval] at hmk
  have h2k : (2 : ℚ) ^ k ≠ 0 := by positivity
  rw [div_eq_div_iff (by norm_num) h2k] at hmk
  have hz : (81 : ℤ) * 2 ^ k = m * 10 := by exact_mod_cast hmk
  have hdvd : (5 : ℤ) ∣ 81 * 2 ^ k := ⟨m * 2, by linarith⟩
  have hp : Prime (5 : ℤ) := Int.prime_iff_natAbs_prime.mpr (by norm_num)
  rcases hp.dvd_mul.mp hdvd with h5 | h5
  · norm_num at h5
  · have h2 := hp.dvd_of_dvd_pow h5
    norm_num at h2

end TvES
